import Mathlib

/-!
Verification development for the Enigma cipher application.

The repository ships the presentation layer (a React/Tauri UI): the file
containing getDefaultConfig, handleKeyPress, processEncryption and
handlePhysicalKeyPress, the EnigmaMachine keyboard component, a notepad
component and a theme.  The cipher engine behind the Tauri command
enigma_process_string is not part of the shipped sources, so it is modelled
here from the specification (each such definition carries a doc comment
starting with the words Modelled from the spec).  Strings are modelled as
their lists of characters; JavaScript/engine machine integers are Nat with
explicit reductions modulo 26.
-/

namespace Enigma

/-! ### Alphabet catalogs (historical rotor and reflector data) -/

/-- Modelled from the spec: static historical RotorSpec catalog data.
Wiring of rotor I (EKMFLGDQVZNTOWYHXUSPAIBRCJ) as letter indices. -/
def rotorIWiring : List Nat :=
  [4, 10, 12, 5, 11, 6, 3, 16, 21, 25, 13, 19, 14, 22, 24, 7, 23, 20, 18, 15, 0, 8, 1, 17, 2, 9]

/-- Modelled from the spec: wiring of rotor II (AJDKSIRUXBLHWTMCQGZNPYFVOE). -/
def rotorIIWiring : List Nat :=
  [0, 9, 3, 10, 18, 8, 17, 20, 23, 1, 11, 7, 22, 19, 12, 2, 16, 6, 25, 13, 15, 24, 5, 21, 14, 4]

/-- Modelled from the spec: wiring of rotor III (BDFHJLCPRTXVZNYEIWGAKMUSQO). -/
def rotorIIIWiring : List Nat :=
  [1, 3, 5, 7, 9, 11, 2, 15, 17, 19, 23, 21, 25, 13, 24, 4, 8, 22, 6, 0, 10, 12, 20, 18, 16, 14]

/-- Modelled from the spec: reflector A wiring (EJMZALYXVBWFCRQUONTSPIKHGD). -/
def reflectorA : List Nat :=
  [4, 9, 12, 25, 0, 11, 24, 23, 21, 1, 22, 5, 2, 17, 16, 20, 14, 13, 19, 18, 15, 8, 10, 7, 6, 3]

/-- Modelled from the spec: reflector B wiring (YRUHQSLDPXNGOKMIEBFZCWVJAT). -/
def reflectorB : List Nat :=
  [24, 17, 20, 7, 16, 18, 11, 3, 15, 23, 13, 6, 14, 10, 12, 8, 4, 1, 5, 25, 2, 22, 21, 9, 0, 19]

/-- Modelled from the spec: reflector C wiring (FVPJIAOYEDRZXWGCTKUQSBNMHL). -/
def reflectorC : List Nat :=
  [5, 21, 15, 9, 8, 0, 14, 24, 4, 3, 17, 25, 23, 22, 6, 2, 19, 10, 20, 16, 18, 1, 13, 12, 7, 11]

/-! ### Permutation primitives -/

/-- Modelled from the spec: Permutation.apply, the forward mapping of a
26-entry wiring table. -/
def applyW (w : List Nat) (x : Nat) : Nat := w.getD x 0

/-- Modelled from the spec: Permutation.applyInverse, derived from the
table by locating the preimage. -/
def applyInvW (w : List Nat) (x : Nat) : Nat := List.findIdx (fun y => y == x) w

/-! ### Rotor -/

/-- Modelled from the spec: RotorSpec, an immutable rotor identity made of a
wiring permutation and a notch letter. -/
structure RotorSpec where
  wiring : List Nat
  notch : Nat

/-- Modelled from the spec: the static rotor catalog entry I (notch Q). -/
def rotorI : RotorSpec := ⟨rotorIWiring, 16⟩

/-- Modelled from the spec: the static rotor catalog entry II (notch E). -/
def rotorII : RotorSpec := ⟨rotorIIWiring, 4⟩

/-- Modelled from the spec: the static rotor catalog entry III (notch V). -/
def rotorIII : RotorSpec := ⟨rotorIIIWiring, 21⟩

/-- Modelled from the spec: Rotor.forward —
inner = (x + position - ring) mod 26, mapped = wiring.apply(inner),
result = (mapped - position + ring) mod 26; Nat subtraction is guarded by
adding 26 since position and ring lie in [0,25] after validation. -/
def rotorForward (s : RotorSpec) (pos ring x : Nat) : Nat :=
  (applyW s.wiring ((x + pos + 26 - ring) % 26) + ring + 26 - pos) % 26

/-- Modelled from the spec: Rotor.backward — identical shift arithmetic but
through the inverse wiring. -/
def rotorBackward (s : RotorSpec) (pos ring x : Nat) : Nat :=
  (applyInvW s.wiring ((x + pos + 26 - ring) % 26) + ring + 26 - pos) % 26

/-- Modelled from the spec: RotorState — a RotorSpec plus the mutable
position and the fixed ring setting. -/
structure RotorState where
  spec : RotorSpec
  pos : Nat
  ring : Nat

/-- Modelled from the spec: Rotor.isAtNotch(position). -/
def isAtNotch (r : RotorState) : Bool := r.pos == r.spec.notch

/-! ### Plugboard -/

/-- Modelled from the spec: Plugboard.swap over a list of disjoint letter
pairs; unpaired letters map to themselves. -/
def plugSwap : List (Nat × Nat) → Nat → Nat
  | [], x => x
  | (a, b) :: rest, x => if x = a then b else if x = b then a else plugSwap rest x

/-- The letters occurring in a plugboard pair list, in order. -/
def plugLetters : List (Nat × Nat) → List Nat
  | [] => []
  | (a, b) :: rest => a :: b :: plugLetters rest

/-! ### Machine -/

/-- Modelled from the spec: the Machine owns three RotorStates (left,
middle, right in signal order), a reflector wiring and a plugboard. -/
structure Machine where
  left : RotorState
  middle : RotorState
  right : RotorState
  reflector : List Nat
  plugboard : List (Nat × Nat)

/-- Modelled from the spec: the stepping transition executed once before
every encrypted letter.  All notch tests read the positions as they were
before any rotor moved in this round: if the middle rotor sits at its notch
the middle and the left rotor advance, otherwise the middle rotor advances
when the right rotor sits at its notch, and the right rotor always
advances. -/
def stepMachine (m : Machine) : Machine :=
  let midAt := isAtNotch m.middle
  let rightAt := isAtNotch m.right
  ⟨⟨m.left.spec, if midAt then (m.left.pos + 1) % 26 else m.left.pos, m.left.ring⟩,
   ⟨m.middle.spec, if midAt || rightAt then (m.middle.pos + 1) % 26 else m.middle.pos,
     m.middle.ring⟩,
   ⟨m.right.spec, (m.right.pos + 1) % 26, m.right.ring⟩,
   m.reflector, m.plugboard⟩

/-- The stepping rule exactly as the specification words it, as an ordered
rule list on the bare position triple (left, middle, right): rule one steps
middle and left when the middle rotor is at its notch; otherwise rule two
steps the middle rotor when the right rotor is at its notch; rule three
always steps the right rotor.  Used to check the Machine transition
against the specification text. -/
def specStep (notchM notchR : Nat) (p : Nat × Nat × Nat) : Nat × Nat × Nat :=
  let pl := p.1
  let pm := p.2.1
  let pr := p.2.2
  if pm = notchM then ((pl + 1) % 26, (pm + 1) % 26, (pr + 1) % 26)
  else if pr = notchR then (pl, (pm + 1) % 26, (pr + 1) % 26)
  else (pl, pm, (pr + 1) % 26)

/-- Modelled from the spec: Machine.encryptLetter — plugboard in, rotors
right-middle-left forward, reflector, rotors left-middle-right backward,
plugboard out.  Stepping is performed by the caller (encryptChars) before
this transform. -/
def encryptLetter (m : Machine) (x : Nat) : Nat :=
  let a := plugSwap m.plugboard x
  let b := rotorForward m.right.spec m.right.pos m.right.ring a
  let c := rotorForward m.middle.spec m.middle.pos m.middle.ring b
  let d := rotorForward m.left.spec m.left.pos m.left.ring c
  let e := applyW m.reflector d
  let f := rotorBackward m.left.spec m.left.pos m.left.ring e
  let g := rotorBackward m.middle.spec m.middle.pos m.middle.ring f
  let h := rotorBackward m.right.spec m.right.pos m.right.ring g
  plugSwap m.plugboard h

/-! ### Character boundary -/

/-- ASCII letter test, the A-Z / a-z character class. -/
def isLetterChar (c : Char) : Bool :=
  (65 ≤ c.toNat && c.toNat ≤ 90) || (97 ≤ c.toNat && c.toNat ≤ 122)

/-- ASCII uppercase normalization of a character. -/
def toUpperChar (c : Char) : Char :=
  if 97 ≤ c.toNat && c.toNat ≤ 122 then Char.ofNat (c.toNat - 32) else c

/-- ASCII lowercase normalization of a character (JavaScript toLowerCase on
the pressed key). -/
def toLowerChar (c : Char) : Char :=
  if 65 ≤ c.toNat && c.toNat ≤ 90 then Char.ofNat (c.toNat + 32) else c

/-- Letter index of a character, after uppercase normalization. -/
def charToLetter (c : Char) : Nat := (toUpperChar c).toNat - 65

/-- Character of a letter index. -/
def letterToChar (n : Nat) : Char := Char.ofNat (65 + n)

/-- Modelled from the spec: Machine.encryptString over the character list
of the text.  A letter first steps the machine and is then transformed;
any character outside A-Z (after case folding) is emitted unchanged with
no stepping and no transformation. -/
def encryptChars (m : Machine) : List Char → List Char
  | [] => []
  | c :: cs =>
    if isLetterChar c then
      letterToChar (encryptLetter (stepMachine m) (charToLetter c)) ::
        encryptChars (stepMachine m) cs
    else c :: encryptChars m cs

/-- The machine state reached after consuming a text: one step per letter,
no step for a passthrough character. -/
def machineAfter (m : Machine) : List Char → Machine
  | [] => m
  | c :: cs => machineAfter (if isLetterChar c then stepMachine m else m) cs

/-! ### Configuration and validation -/

/-- One rotor initializer of the external configuration payload. -/
structure RotorConfig where
  name : String
  position : String
  ring : String
deriving DecidableEq

/-- Modelled from the spec: the external MachineConfig payload — three
rotor initializers, a reflector identifier and a plugboard pairing
string. -/
structure MachineConfig where
  rotors : RotorConfig × RotorConfig × RotorConfig
  reflector : String
  plugboard_pairs : String
deriving DecidableEq

/-- Modelled from the spec: the error taxonomy of the ConfigValidator. -/
inductive EnigmaError
  | invalidPermutation
  | unknownRotor
  | unknownReflector
  | duplicateRotor
  | invalidSetting
  | invalidPlugboard
deriving DecidableEq

/-- Modelled from the spec: resolution of a rotor name against the static
catalog. -/
def lookupRotor (n : String) : Option RotorSpec :=
  if n = ("I") then some rotorI
  else if n = ("II") then some rotorII
  else if n = ("III") then some rotorIII
  else none

/-- Modelled from the spec: resolution of a reflector identifier against
the static catalog. -/
def lookupReflector (n : String) : Option (List Nat) :=
  if n = ("A") then some reflectorA
  else if n = ("B") then some reflectorB
  else if n = ("C") then some reflectorC
  else none

/-- Modelled from the spec: a position or ring setting must be a single
A-Z letter. -/
def parseLetterSetting (s : String) : Option Nat :=
  match s.data with
  | [c] => if 65 ≤ c.toNat && c.toNat ≤ 90 then some (c.toNat - 65) else none
  | _ => none

/-- Splits the plugboard string at whitespace or comma delimiters,
dropping empty fragments; the second argument accumulates the current
token in reverse. -/
def tokenize : List Char → List Char → List (List Char)
  | [], acc => if acc.isEmpty then [] else [acc.reverse]
  | c :: cs, acc =>
    if c = ' ' || c = ',' then
      if acc.isEmpty then tokenize cs [] else acc.reverse :: tokenize cs []
    else tokenize cs (c :: acc)

/-- Modelled from the spec: one plugboard token must be exactly two
distinct A-Z letters. -/
def parsePair (t : List Char) : Option (Nat × Nat) :=
  match t with
  | [a, b] =>
    if (65 ≤ a.toNat && a.toNat ≤ 90) && (65 ≤ b.toNat && b.toNat ≤ 90) && a ≠ b then
      some (a.toNat - 65, b.toNat - 65)
    else none
  | _ => none

/-- Parses every plugboard token, failing when any token is malformed. -/
def parsePairs : List (List Char) → Option (List (Nat × Nat))
  | [] => some []
  | t :: ts =>
    match parsePair t, parsePairs ts with
    | some p, some ps => some (p :: ps)
    | _, _ => none

/-- Modelled from the spec: plugboard construction — tokenized pairs, at
most thirteen of them, with no letter appearing twice. -/
def parsePlugboard (s : String) : Except EnigmaError (List (Nat × Nat)) :=
  match parsePairs (tokenize s.data []) with
  | none => Except.error EnigmaError.invalidPlugboard
  | some ps =>
    if ps.length ≤ 13 ∧ (plugLetters ps).Nodup then Except.ok ps
    else Except.error EnigmaError.invalidPlugboard

/-- Modelled from the spec: the ConfigValidator — rotor names must resolve
and be pairwise distinct, positions and rings must be single A-Z letters,
the reflector must resolve, the plugboard string must parse; on success a
fresh Machine is built, mounting the first configured rotor leftmost and
the third rightmost. -/
def validateConfig (c : MachineConfig) : Except EnigmaError Machine :=
  match c.rotors with
  | (r0, r1, r2) =>
    match lookupRotor r0.name, lookupRotor r1.name, lookupRotor r2.name with
    | some s0, some s1, some s2 =>
      if r0.name = r1.name ∨ r0.name = r2.name ∨ r1.name = r2.name then
        Except.error EnigmaError.duplicateRotor
      else
        match parseLetterSetting r0.position, parseLetterSetting r0.ring,
            parseLetterSetting r1.position, parseLetterSetting r1.ring,
            parseLetterSetting r2.position, parseLetterSetting r2.ring with
        | some p0, some g0, some p1, some g1, some p2, some g2 =>
          match lookupReflector c.reflector with
          | some refw =>
            match parsePlugboard c.plugboard_pairs with
            | Except.ok pb => Except.ok ⟨⟨s0, p0, g0⟩, ⟨s1, p1, g1⟩, ⟨s2, p2, g2⟩, refw, pb⟩
            | Except.error e => Except.error e
          | none => Except.error EnigmaError.unknownReflector
        | _, _, _, _, _, _ => Except.error EnigmaError.invalidSetting
    | _, _, _ => Except.error EnigmaError.unknownRotor

/-- Modelled from the spec: the full engine boundary behind the
enigma_process_string command — validate, build a fresh Machine, encrypt. -/
def enigmaProcessString (c : MachineConfig) (text : List Char) :
    Except EnigmaError (List Char) :=
  match validateConfig c with
  | Except.ok m => Except.ok (encryptChars m text)
  | Except.error e => Except.error e

/-! ### Presentation layer (from the shipped sources) -/

/-- getDefaultConfig from the application source: rotors I, II, III, each
with position A and ring A, reflector B, empty plugboard string. -/
def defaultConfig : MachineConfig :=
  ⟨(⟨("I"), ("A"), ("A")⟩, ⟨("II"), ("A"), ("A")⟩, ⟨("III"), ("A"), ("A")⟩), ("B"), ("")⟩

/-- The Machine the validator derives from the default configuration. -/
def defaultMachine : Machine :=
  ⟨⟨rotorI, 0, 0⟩, ⟨rotorII, 0, 0⟩, ⟨rotorIII, 0, 0⟩, reflectorB, []⟩

/-- A machine one keystroke away from the double-stepping anomaly: the
right rotor III sits at its notch V and the middle rotor II sits one short
of its notch E, so the middle rotor advances on this letter and again on
the next one. -/
def doubleStepMachine : Machine :=
  ⟨⟨rotorI, 0, 0⟩, ⟨rotorII, 3, 0⟩, ⟨rotorIII, 21, 0⟩, reflectorB, []⟩

/-- The two React state variables of the application: the accumulated
plaintext and the displayed ciphertext. -/
structure UIState where
  orig : List Char
  enc : List Char
deriving DecidableEq

/-- One invocation of the engine: the configuration and the text it was
called with. -/
structure EngineCall where
  config : MachineConfig
  text : List Char
deriving DecidableEq

/-- The key test of handleKeyPress, the regular expression accepting
exactly one ASCII letter. -/
def isLetterKey (k : String) : Bool :=
  match k.data with
  | [c] => isLetterChar c
  | _ => false

/-- handleKeyPress from the application source, together with the engine
response handling of processEncryption.  A space appends itself to both
displayed texts and calls no engine; a single-letter key appends its
lowercase form to the plaintext and invokes the engine with the default
configuration and the whole accumulated plaintext uppercased, replacing
the displayed ciphertext with the response on success and appending one
question mark to it on failure; every other key does nothing.  The
asynchronous engine response of this keystroke is passed in as resp, and
the list of engine invocations made is returned alongside the new
state. -/
def uiHandleKeyPress (s : UIState) (k : String) (resp : Except Unit (List Char)) :
    UIState × List EngineCall :=
  if k = (" ") then (⟨s.orig ++ [' '], s.enc ++ [' ']⟩, [])
  else if isLetterKey k then
    let updated := s.orig ++ k.data.map toLowerChar
    let call : EngineCall := ⟨defaultConfig, updated.map toUpperChar⟩
    match resp with
    | Except.ok r => (⟨updated, r⟩, [call])
    | Except.error _ => (⟨updated, s.enc ++ ['?']⟩, [call])
  else (s, [])

/-- handlePhysicalKeyPress from the application source: the keydown
listener forwards event.key to handleKeyPress unchanged. -/
def uiHandlePhysicalKeyPress (s : UIState) (eventKey : String)
    (resp : Except Unit (List Char)) : UIState × List EngineCall :=
  uiHandleKeyPress s eventKey resp

/-- The virtual keyboard rows of the EnigmaMachine component. -/
def keyboardRows : List (List String) :=
  [[("Q"), ("W"), ("E"), ("R"), ("T"), ("Y"), ("U"), ("I"), ("O"), ("P")],
   [("A"), ("S"), ("D"), ("F"), ("G"), ("H"), ("J"), ("K"), ("L")],
   [("Z"), ("X"), ("C"), ("V"), ("B"), ("N"), ("M")]]

/-! ### Validity predicates -/

/-- A wiring table is a bijection of the 26-letter alphabet: image and
preimage stay in range and invert each other. -/
def goodWiring (w : List Nat) : Prop :=
  ∀ x, x < 26 →
    applyW w x < 26 ∧ applyInvW w x < 26 ∧
    applyInvW w (applyW w x) = x ∧ applyW w (applyInvW w x) = x

/-- A reflector wiring is an in-range involution of the alphabet. -/
def goodReflector (w : List Nat) : Prop :=
  ∀ x, x < 26 → applyW w x < 26 ∧ applyW w (applyW w x) = x

/-- Everything the validator guarantees about a Machine it built: catalog
wirings are bijections, the reflector is an involution, the plugboard
pairs are disjoint in-range letters and all positions and rings lie in
[0,25]. -/
structure MachineGood (m : Machine) : Prop where
  leftW : goodWiring m.left.spec.wiring
  midW : goodWiring m.middle.spec.wiring
  rightW : goodWiring m.right.spec.wiring
  reflOk : goodReflector m.reflector
  plugNod : (plugLetters m.plugboard).Nodup
  plugLt : ∀ l ∈ plugLetters m.plugboard, l < 26
  posL : m.left.pos < 26
  posM : m.middle.pos < 26
  posR : m.right.pos < 26
  ringL : m.left.ring < 26
  ringM : m.middle.ring < 26
  ringR : m.right.ring < 26

/-! ### Character facts -/

theorem toNat_ofNat_valid (n : Nat) (h : n < 55296) : (Char.ofNat n).toNat = n := by
  simp [Char.ofNat, Char.toNat, Char.ofNatAux, Nat.isValidChar, h]
  rfl

theorem toUpperChar_of_upper (c : Char) (h1 : 65 ≤ c.toNat) (h2 : c.toNat ≤ 90) :
    toUpperChar c = c := by
  unfold toUpperChar
  have : (97 ≤ c.toNat && c.toNat ≤ 122) = false := by
    simp only [Bool.and_eq_false_iff, decide_eq_false_iff_not]
    omega
  simp [this]

theorem toUpperChar_toNat_of_lower (c : Char) (h1 : 97 ≤ c.toNat) (h2 : c.toNat ≤ 122) :
    (toUpperChar c).toNat = c.toNat - 32 := by
  unfold toUpperChar
  have : (97 ≤ c.toNat && c.toNat ≤ 122) = true := by
    simp only [Bool.and_eq_true, decide_eq_true_eq]
    omega
  rw [if_pos this, toNat_ofNat_valid _ (by omega)]

theorem toUpperChar_toNat_bounds (c : Char) (h : isLetterChar c = true) :
    65 ≤ (toUpperChar c).toNat ∧ (toUpperChar c).toNat ≤ 90 := by
  unfold isLetterChar at h
  simp only [Bool.or_eq_true, Bool.and_eq_true, decide_eq_true_eq] at h
  rcases h with ⟨h1, h2⟩ | ⟨h1, h2⟩
  · rw [toUpperChar_of_upper c h1 h2]; omega
  · rw [toUpperChar_toNat_of_lower c h1 h2]; omega

theorem toUpperChar_of_nonletter (c : Char) (h : isLetterChar c = false) :
    toUpperChar c = c := by
  unfold isLetterChar at h
  simp only [Bool.or_eq_false_iff, Bool.and_eq_false_iff, decide_eq_false_iff_not] at h
  unfold toUpperChar
  have : (97 ≤ c.toNat && c.toNat ≤ 122) = false := by
    simp only [Bool.and_eq_false_iff, decide_eq_false_iff_not]
    omega
  simp [this]

theorem charToLetter_lt (c : Char) (h : isLetterChar c = true) : charToLetter c < 26 := by
  have := toUpperChar_toNat_bounds c h
  unfold charToLetter
  omega

theorem isLetterChar_letterToChar (n : Nat) (h : n < 26) :
    isLetterChar (letterToChar n) = true := by
  unfold isLetterChar letterToChar
  rw [toNat_ofNat_valid _ (by omega)]
  simp only [Bool.or_eq_true, Bool.and_eq_true, decide_eq_true_eq]
  omega

theorem charToLetter_letterToChar (n : Nat) (h : n < 26) :
    charToLetter (letterToChar n) = n := by
  unfold charToLetter letterToChar
  rw [toUpperChar_of_upper]
  · rw [toNat_ofNat_valid _ (by omega)]; omega
  · rw [toNat_ofNat_valid _ (by omega)]; omega
  · rw [toNat_ofNat_valid _ (by omega)]; omega

theorem letterToChar_charToLetter (c : Char) (h1 : 65 ≤ c.toNat) (h2 : c.toNat ≤ 90) :
    letterToChar (charToLetter c) = c := by
  unfold letterToChar charToLetter
  rw [toUpperChar_of_upper c h1 h2]
  have : 65 + (c.toNat - 65) = c.toNat := by omega
  rw [this, Char.ofNat_toNat]

theorem isLetterChar_toUpperChar (c : Char) :
    isLetterChar (toUpperChar c) = isLetterChar c := by
  by_cases h : isLetterChar c = true
  · rw [h]
    have := toUpperChar_toNat_bounds c h
    unfold isLetterChar
    simp only [Bool.or_eq_true, Bool.and_eq_true, decide_eq_true_eq]
    omega
  · rw [Bool.not_eq_true] at h
    rw [h, toUpperChar_of_nonletter c h]
    exact h

theorem toUpperChar_idem (c : Char) : toUpperChar (toUpperChar c) = toUpperChar c := by
  by_cases h : isLetterChar c = true
  · have := toUpperChar_toNat_bounds c h
    exact toUpperChar_of_upper _ this.1 this.2
  · rw [Bool.not_eq_true] at h
    rw [toUpperChar_of_nonletter c h, toUpperChar_of_nonletter c h]

theorem charToLetter_toUpperChar (c : Char) :
    charToLetter (toUpperChar c) = charToLetter c := by
  unfold charToLetter
  rw [toUpperChar_idem]

/-! ### Catalog facts -/

theorem goodWiring_rotorI : goodWiring rotorIWiring := by unfold goodWiring; decide

theorem goodWiring_rotorII : goodWiring rotorIIWiring := by unfold goodWiring; decide

theorem goodWiring_rotorIII : goodWiring rotorIIIWiring := by unfold goodWiring; decide

theorem goodReflector_A : goodReflector reflectorA := by unfold goodReflector; decide

theorem goodReflector_B : goodReflector reflectorB := by unfold goodReflector; decide

theorem goodReflector_C : goodReflector reflectorC := by unfold goodReflector; decide

theorem lookupRotor_good (n : String) (s : RotorSpec) (h : lookupRotor n = some s) :
    goodWiring s.wiring := by
  unfold lookupRotor at h
  split at h
  · cases h; exact goodWiring_rotorI
  · split at h
    · cases h; exact goodWiring_rotorII
    · split at h
      · cases h; exact goodWiring_rotorIII
      · cases h

theorem lookupReflector_good (n : String) (w : List Nat) (h : lookupReflector n = some w) :
    goodReflector w := by
  unfold lookupReflector at h
  split at h
  · cases h; exact goodReflector_A
  · split at h
    · cases h; exact goodReflector_B
    · split at h
      · cases h; exact goodReflector_C
      · cases h

theorem parseLetterSetting_lt (s : String) (v : Nat) (h : parseLetterSetting s = some v) :
    v < 26 := by
  unfold parseLetterSetting at h
  split at h
  · split at h
    · rename_i c _ hc
      simp only [Bool.and_eq_true, decide_eq_true_eq] at hc
      cases h
      omega
    · cases h
  · cases h

/-! ### Plugboard facts -/

theorem plugSwap_eq_or_mem (pb : List (Nat × Nat)) (x : Nat) :
    plugSwap pb x = x ∨ plugSwap pb x ∈ plugLetters pb := by
  induction pb with
  | nil => left; rfl
  | cons p rest ih =>
    obtain ⟨a, b⟩ := p
    unfold plugSwap plugLetters
    by_cases hxa : x = a
    · right; simp [hxa]
    · by_cases hxb : x = b
      · right; simp [hxa, hxb]
      · rw [if_neg hxa, if_neg hxb]
        rcases ih with h | h
        · left; exact h
        · right; simp [h]

theorem plugSwap_invol (pb : List (Nat × Nat)) (hnd : (plugLetters pb).Nodup) (x : Nat) :
    plugSwap pb (plugSwap pb x) = x := by
  induction pb with
  | nil => rfl
  | cons p rest ih =>
    obtain ⟨a, b⟩ := p
    simp only [plugLetters, List.nodup_cons, List.mem_cons] at hnd
    obtain ⟨ha, hb, hrest⟩ := hnd
    push_neg at ha
    have hab : a ≠ b := ha.1
    have hapl : a ∉ plugLetters rest := ha.2
    have hbpl : b ∉ plugLetters rest := hb
    have hcons : ∀ y, plugSwap ((a, b) :: rest) y =
        if y = a then b else if y = b then a else plugSwap rest y := fun _ => rfl
    by_cases hxa : x = a
    · have hinner : plugSwap ((a, b) :: rest) x = b := by rw [hcons, if_pos hxa]
      rw [hinner, hcons, if_neg (Ne.symm hab), if_pos rfl, hxa]
    · by_cases hxb : x = b
      · have hinner : plugSwap ((a, b) :: rest) x = a := by
          rw [hcons, if_neg hxa, if_pos hxb]
        rw [hinner, hcons, if_pos rfl, hxb]
      · have hinner : plugSwap ((a, b) :: rest) x = plugSwap rest x := by
          rw [hcons, if_neg hxa, if_neg hxb]
        rw [hinner]
        rcases plugSwap_eq_or_mem rest x with h | h
        · rw [h, hcons, if_neg hxa, if_neg hxb, h]
        · have h1 : plugSwap rest x ≠ a := fun hc => hapl (hc ▸ h)
          have h2 : plugSwap rest x ≠ b := fun hc => hbpl (hc ▸ h)
          rw [hcons, if_neg h1, if_neg h2, ih hrest]

theorem plugSwap_lt (pb : List (Nat × Nat)) (hlt : ∀ l ∈ plugLetters pb, l < 26)
    (x : Nat) (hx : x < 26) : plugSwap pb x < 26 := by
  rcases plugSwap_eq_or_mem pb x with h | h
  · rw [h]; exact hx
  · exact hlt _ h

theorem parsePair_lt (t : List Char) (a b : Nat) (h : parsePair t = some (a, b)) :
    a < 26 ∧ b < 26 := by
  unfold parsePair at h
  split at h
  · split at h
    · rename_i c d hcd
      simp only [Bool.and_eq_true, decide_eq_true_eq] at hcd
      cases h
      omega
    · cases h
  · cases h

theorem parsePairs_lt (ts : List (List Char)) (ps : List (Nat × Nat))
    (h : parsePairs ts = some ps) : ∀ l ∈ plugLetters ps, l < 26 := by
  induction ts generalizing ps with
  | nil =>
    unfold parsePairs at h
    cases h
    intro l hl
    cases hl
  | cons t ts ih =>
    unfold parsePairs at h
    split at h
    · rename_i p ps2 hp hps
      cases h
      obtain ⟨a, b⟩ := p
      have hab := parsePair_lt t a b hp
      intro l hl
      simp only [plugLetters, List.mem_cons] at hl
      rcases hl with rfl | rfl | hl
      · exact hab.1
      · exact hab.2
      · exact ih ps2 hps l hl
    · cases h

theorem parsePlugboard_ok (s : String) (pb : List (Nat × Nat))
    (h : parsePlugboard s = Except.ok pb) :
    (plugLetters pb).Nodup ∧ ∀ l ∈ plugLetters pb, l < 26 := by
  unfold parsePlugboard at h
  split at h
  · cases h
  · rename_i ps hps
    split at h
    · rename_i hcond
      cases h
      exact ⟨hcond.2, parsePairs_lt _ _ hps⟩
    · cases h

/-! ### Rotor transform facts -/

theorem rotorForward_lt (s : RotorSpec) (pos ring x : Nat) :
    rotorForward s pos ring x < 26 := Nat.mod_lt _ (by omega)

theorem rotorBackward_lt (s : RotorSpec) (pos ring x : Nat) :
    rotorBackward s pos ring x < 26 := Nat.mod_lt _ (by omega)

theorem rotorBackward_rotorForward (s : RotorSpec) (pos ring x : Nat)
    (hw : goodWiring s.wiring) (hp : pos < 26) (hr : ring < 26) (hx : x < 26) :
    rotorBackward s pos ring (rotorForward s pos ring x) = x := by
  unfold rotorForward rotorBackward
  have hi : (x + pos + 26 - ring) % 26 < 26 := Nat.mod_lt _ (by omega)
  obtain ⟨hm, _, hinv, _⟩ := hw _ hi
  have hshift :
      ((applyW s.wiring ((x + pos + 26 - ring) % 26) + ring + 26 - pos) % 26 + pos + 26 - ring)
        % 26 = applyW s.wiring ((x + pos + 26 - ring) % 26) := by
    omega
  rw [hshift, hinv]
  omega

theorem rotorForward_rotorBackward (s : RotorSpec) (pos ring x : Nat)
    (hw : goodWiring s.wiring) (hp : pos < 26) (hr : ring < 26) (hx : x < 26) :
    rotorForward s pos ring (rotorBackward s pos ring x) = x := by
  unfold rotorForward rotorBackward
  have hi : (x + pos + 26 - ring) % 26 < 26 := Nat.mod_lt _ (by omega)
  obtain ⟨_, hm, _, hfwd⟩ := hw _ hi
  have hshift :
      ((applyInvW s.wiring ((x + pos + 26 - ring) % 26) + ring + 26 - pos) % 26 + pos + 26
          - ring) % 26 = applyInvW s.wiring ((x + pos + 26 - ring) % 26) := by
    omega
  rw [hshift, hfwd]
  omega

/-! ### Machine facts -/

theorem encryptLetter_lt (m : Machine) (hg : MachineGood m) (x : Nat) :
    encryptLetter m x < 26 := by
  unfold encryptLetter
  exact plugSwap_lt _ hg.plugLt _ (rotorBackward_lt _ _ _ _)

theorem encryptLetter_invol (m : Machine) (hg : MachineGood m) (x : Nat) (hx : x < 26) :
    encryptLetter m (encryptLetter m x) = x := by
  have hpx : plugSwap m.plugboard x < 26 := plugSwap_lt _ hg.plugLt _ hx
  have hb : rotorForward m.right.spec m.right.pos m.right.ring
      (plugSwap m.plugboard x) < 26 := rotorForward_lt _ _ _ _
  have hc : rotorForward m.middle.spec m.middle.pos m.middle.ring _ < 26 :=
    rotorForward_lt m.middle.spec m.middle.pos m.middle.ring
      (rotorForward m.right.spec m.right.pos m.right.ring (plugSwap m.plugboard x))
  simp only [encryptLetter]
  rw [plugSwap_invol _ hg.plugNod]
  rw [rotorForward_rotorBackward _ _ _ _ hg.rightW hg.posR hg.ringR
    (rotorBackward_lt _ _ _ _)]
  rw [rotorForward_rotorBackward _ _ _ _ hg.midW hg.posM hg.ringM
    (rotorBackward_lt _ _ _ _)]
  rw [rotorForward_rotorBackward _ _ _ _ hg.leftW hg.posL hg.ringL
    (hg.reflOk _ (rotorForward_lt _ _ _ _)).1]
  rw [(hg.reflOk _ (rotorForward_lt _ _ _ _)).2]
  rw [rotorBackward_rotorForward _ _ _ _ hg.leftW hg.posL hg.ringL hc]
  rw [rotorBackward_rotorForward _ _ _ _ hg.midW hg.posM hg.ringM hb]
  rw [rotorBackward_rotorForward _ _ _ _ hg.rightW hg.posR hg.ringR hpx]
  exact plugSwap_invol _ hg.plugNod x

theorem stepMachine_good (m : Machine) (hg : MachineGood m) : MachineGood (stepMachine m) := by
  refine ⟨hg.leftW, hg.midW, hg.rightW, hg.reflOk, hg.plugNod, hg.plugLt, ?_, ?_, ?_,
    hg.ringL, hg.ringM, hg.ringR⟩
  · show (if isAtNotch m.middle = true then (m.left.pos + 1) % 26 else m.left.pos) < 26
    split
    · exact Nat.mod_lt _ (by omega)
    · exact hg.posL
  · show (if (isAtNotch m.middle || isAtNotch m.right) = true then (m.middle.pos + 1) % 26
      else m.middle.pos) < 26
    split
    · exact Nat.mod_lt _ (by omega)
    · exact hg.posM
  · show (m.right.pos + 1) % 26 < 26
    exact Nat.mod_lt _ (by omega)

theorem validateConfig_good (c : MachineConfig) (m : Machine)
    (h : validateConfig c = Except.ok m) : MachineGood m := by
  unfold validateConfig at h
  obtain ⟨⟨r0, r1, r2⟩, refn, pbs⟩ := c
  simp only at h
  split at h
  · rename_i s0 s1 s2 h0 h1 h2
    split at h
    · cases h
    · split at h
      · rename_i settings p0 g0 p1 g1 p2 g2 hp0 hg0 hp1 hg1 hp2 hg2
        split at h
        · rename_i refw href
          split at h
          · rename_i pb hpb
            cases h
            have hplug := parsePlugboard_ok _ _ hpb
            exact {
              leftW := lookupRotor_good _ _ h0
              midW := lookupRotor_good _ _ h1
              rightW := lookupRotor_good _ _ h2
              reflOk := lookupReflector_good _ _ href
              plugNod := hplug.1
              plugLt := hplug.2
              posL := parseLetterSetting_lt _ _ hp0
              posM := parseLetterSetting_lt _ _ hp1
              posR := parseLetterSetting_lt _ _ hp2
              ringL := parseLetterSetting_lt _ _ hg0
              ringM := parseLetterSetting_lt _ _ hg1
              ringR := parseLetterSetting_lt _ _ hg2 }
          · cases h
        · cases h
      · cases h
  · cases h

theorem validate_default : validateConfig defaultConfig = Except.ok defaultMachine := by
  rfl

/-! ### String-level facts -/

theorem encryptChars_cons_letter (m : Machine) (c : Char) (cs : List Char)
    (h : isLetterChar c = true) :
    encryptChars m (c :: cs) =
      letterToChar (encryptLetter (stepMachine m) (charToLetter c)) ::
        encryptChars (stepMachine m) cs := by
  conv_lhs => rw [encryptChars]
  rw [if_pos h]

theorem encryptChars_cons_passthrough (m : Machine) (c : Char) (cs : List Char)
    (h : isLetterChar c = false) :
    encryptChars m (c :: cs) = c :: encryptChars m cs := by
  conv_lhs => rw [encryptChars]
  rw [if_neg (by rw [h]; exact Bool.false_ne_true)]

theorem machineAfter_cons_letter (m : Machine) (c : Char) (cs : List Char)
    (h : isLetterChar c = true) :
    machineAfter m (c :: cs) = machineAfter (stepMachine m) cs := by
  conv_lhs => rw [machineAfter]
  rw [if_pos h]

theorem machineAfter_cons_passthrough (m : Machine) (c : Char) (cs : List Char)
    (h : isLetterChar c = false) :
    machineAfter m (c :: cs) = machineAfter m cs := by
  conv_lhs => rw [machineAfter]
  rw [if_neg (by rw [h]; exact Bool.false_ne_true)]

theorem encryptChars_length (m : Machine) (t : List Char) :
    (encryptChars m t).length = t.length := by
  induction t generalizing m with
  | nil => rfl
  | cons c cs ih =>
    by_cases hl : isLetterChar c = true
    · rw [encryptChars_cons_letter _ _ _ hl]
      simp [ih]
    · rw [Bool.not_eq_true] at hl
      rw [encryptChars_cons_passthrough _ _ _ hl]
      simp [ih]

theorem encryptChars_passthrough (m : Machine) (t : List Char) (i : Nat) (c : Char)
    (hc : t.get? i = some c) (hl : isLetterChar c = false) :
    (encryptChars m t).get? i = some c := by
  induction t generalizing m i with
  | nil => cases hc
  | cons d ds ih =>
    cases i with
    | zero =>
      cases hc
      rw [encryptChars_cons_passthrough _ _ _ hl]
      rfl
    | succ j =>
      by_cases hd : isLetterChar d = true
      · rw [encryptChars_cons_letter _ _ _ hd]
        exact ih _ j hc
      · rw [Bool.not_eq_true] at hd
        rw [encryptChars_cons_passthrough _ _ _ hd]
        exact ih _ j hc

theorem encryptChars_toUpper (m : Machine) (t : List Char) :
    encryptChars m (t.map toUpperChar) = encryptChars m t := by
  induction t generalizing m with
  | nil => rfl
  | cons c cs ih =>
    rw [List.map_cons]
    by_cases hl : isLetterChar c = true
    · rw [encryptChars_cons_letter _ _ _ (by rw [isLetterChar_toUpperChar]; exact hl),
        encryptChars_cons_letter _ _ _ hl, charToLetter_toUpperChar, ih]
    · rw [Bool.not_eq_true] at hl
      rw [encryptChars_cons_passthrough _ _ _ (by rw [isLetterChar_toUpperChar]; exact hl),
        encryptChars_cons_passthrough _ _ _ hl, toUpperChar_of_nonletter c hl, ih]

theorem encryptChars_filter (m : Machine) (hg : MachineGood m) (t : List Char) :
    encryptChars m (t.filter isLetterChar) = (encryptChars m t).filter isLetterChar := by
  induction t generalizing m with
  | nil => rfl
  | cons c cs ih =>
    by_cases hl : isLetterChar c = true
    · rw [List.filter_cons_of_pos hl, encryptChars_cons_letter _ _ _ hl,
        encryptChars_cons_letter _ _ _ hl,
        List.filter_cons_of_pos
          (isLetterChar_letterToChar _ (encryptLetter_lt _ (stepMachine_good m hg) _)),
        ih _ (stepMachine_good m hg)]
    · have hl2 : isLetterChar c = false := by rw [Bool.not_eq_true] at hl; exact hl
      rw [List.filter_cons_of_neg hl, encryptChars_cons_passthrough _ _ _ hl2,
        List.filter_cons_of_neg hl, ih _ hg]

theorem encryptChars_append (m : Machine) (t1 t2 : List Char) :
    encryptChars m (t1 ++ t2) = encryptChars m t1 ++ encryptChars (machineAfter m t1) t2 := by
  induction t1 generalizing m with
  | nil => rfl
  | cons c cs ih =>
    rw [List.cons_append]
    by_cases hl : isLetterChar c = true
    · rw [encryptChars_cons_letter _ _ _ hl, encryptChars_cons_letter _ _ _ hl,
        machineAfter_cons_letter _ _ _ hl, ih, List.cons_append]
    · rw [Bool.not_eq_true] at hl
      rw [encryptChars_cons_passthrough _ _ _ hl, encryptChars_cons_passthrough _ _ _ hl,
        machineAfter_cons_passthrough _ _ _ hl, ih, List.cons_append]

theorem encryptChars_reciprocal (m : Machine) (hg : MachineGood m) (t : List Char)
    (ht : ∀ c ∈ t, 65 ≤ c.toNat ∧ c.toNat ≤ 90) :
    encryptChars m (encryptChars m t) = t := by
  induction t generalizing m with
  | nil => rfl
  | cons c cs ih =>
    have hc := ht c (List.mem_cons_self c cs)
    have hcl : isLetterChar c = true := by
      unfold isLetterChar
      simp only [Bool.or_eq_true, Bool.and_eq_true, decide_eq_true_eq]
      omega
    have hg2 : MachineGood (stepMachine m) := stepMachine_good m hg
    have hx : charToLetter c < 26 := charToLetter_lt c hcl
    have hy : encryptLetter (stepMachine m) (charToLetter c) < 26 :=
      encryptLetter_lt _ hg2 _
    rw [encryptChars_cons_letter _ _ _ hcl,
      encryptChars_cons_letter _ _ _ (isLetterChar_letterToChar _ hy),
      charToLetter_letterToChar _ hy,
      encryptLetter_invol _ hg2 _ hx,
      letterToChar_charToLetter c hc.1 hc.2,
      ih _ hg2 (fun d hd => ht d (List.mem_cons_of_mem c hd))]

/-! ### Claims about the engine -/

/-- C2: for every valid MachineConfig C and every text T, two calls of
encryptString(C, T), each from a fresh Machine built from C, return
identical output strings. -/
theorem claim_C2_determinism (C : MachineConfig) (T : List Char) (m1 m2 : Machine)
    (h1 : validateConfig C = Except.ok m1) (h2 : validateConfig C = Except.ok m2) :
    encryptChars m1 T = encryptChars m2 T := by
  rw [h1] at h2
  cases h2
  rfl

theorem claim_C2_determinism_witness :
    validateConfig defaultConfig = Except.ok defaultMachine ∧
      encryptChars defaultMachine ['H'] = encryptChars defaultMachine ['H'] :=
  ⟨validate_default,
    claim_C2_determinism defaultConfig ['H'] defaultMachine defaultMachine
      validate_default validate_default⟩

/-- C3: for every valid MachineConfig C and all letters-only texts T1, T2
with T1 a strict prefix of T2, encryptString(C, T2) begins with
encryptString(C, T1): the engine carries no rotor positions between
calls. -/
theorem claim_C3_prefix_consistency (C : MachineConfig) (m : Machine) (T1 T2 : List Char)
    (hv : validateConfig C = Except.ok m)
    (hl1 : ∀ c ∈ T1, isLetterChar c = true) (hl2 : ∀ c ∈ T2, isLetterChar c = true)
    (hpre : ∃ rest, rest ≠ [] ∧ T2 = T1 ++ rest) :
    ∃ out, encryptChars m T2 = encryptChars m T1 ++ out := by
  obtain ⟨rest, _, rfl⟩ := hpre
  exact ⟨_, encryptChars_append m T1 rest⟩

theorem claim_C3_prefix_consistency_witness :
    ∃ out, encryptChars defaultMachine ['A', 'B'] = encryptChars defaultMachine ['A'] ++ out :=
  claim_C3_prefix_consistency defaultConfig defaultMachine ['A'] ['A', 'B'] validate_default
    (by decide) (by decide) ⟨['B'], by decide, rfl⟩

/-- C4: for every valid MachineConfig C and every text T, encryptString
returns a string of the same length as T, emits every non-letter
character unchanged at its original position, treats letters
case-insensitively (uppercase normalization), and encrypts the letters
around a passthrough character with the same continuous stepping sequence
as if the passthrough character were absent. -/
theorem claim_C4_letters_and_passthrough (C : MachineConfig) (m : Machine) (T : List Char)
    (hv : validateConfig C = Except.ok m) :
    (encryptChars m T).length = T.length ∧
    (∀ i c, T.get? i = some c → isLetterChar c = false →
      (encryptChars m T).get? i = some c) ∧
    encryptChars m (T.map toUpperChar) = encryptChars m T ∧
    encryptChars m (T.filter isLetterChar) = (encryptChars m T).filter isLetterChar := by
  have hg := validateConfig_good C m hv
  exact ⟨encryptChars_length m T,
    fun i c hc hl => encryptChars_passthrough m T i c hc hl,
    encryptChars_toUpper m T,
    encryptChars_filter m hg T⟩

theorem claim_C4_letters_and_passthrough_witness :
    (encryptChars defaultMachine
        ['H', 'E', 'L', 'L', 'O', ' ', 'W', 'O', 'R', 'L', 'D']).length =
      (['H', 'E', 'L', 'L', 'O', ' ', 'W', 'O', 'R', 'L', 'D'] : List Char).length ∧
    (∀ i c,
      (['H', 'E', 'L', 'L', 'O', ' ', 'W', 'O', 'R', 'L', 'D'] : List Char).get? i = some c →
      isLetterChar c = false →
      (encryptChars defaultMachine
        ['H', 'E', 'L', 'L', 'O', ' ', 'W', 'O', 'R', 'L', 'D']).get? i = some c) ∧
    encryptChars defaultMachine
        (['H', 'E', 'L', 'L', 'O', ' ', 'W', 'O', 'R', 'L', 'D'].map toUpperChar) =
      encryptChars defaultMachine ['H', 'E', 'L', 'L', 'O', ' ', 'W', 'O', 'R', 'L', 'D'] ∧
    encryptChars defaultMachine
        (['H', 'E', 'L', 'L', 'O', ' ', 'W', 'O', 'R', 'L', 'D'].filter isLetterChar) =
      (encryptChars defaultMachine
        ['H', 'E', 'L', 'L', 'O', ' ', 'W', 'O', 'R', 'L', 'D']).filter isLetterChar :=
  claim_C4_letters_and_passthrough defaultConfig defaultMachine _ validate_default

/-- C5 as stated is false: the engine normalizes letters to uppercase, so
double encryption of a lowercase letters-only text returns the uppercase
text, not the original.  Concretely, with the default configuration the
text consisting of the single letter a encrypts to B, B encrypts back to
A, and A differs from a. -/
theorem claim_C5_counterexample :
    enigmaProcessString defaultConfig ['a'] = Except.ok ['B'] ∧
    enigmaProcessString defaultConfig ['B'] = Except.ok ['A'] ∧
    (['A'] : List Char) ≠ ['a'] :=
  ⟨rfl, rfl, by decide⟩

/-- C5 amended: for every valid MachineConfig C and every text T composed
only of uppercase letters A-Z, encrypting the ciphertext with a fresh
Machine built from the same initial configuration reproduces the
plaintext: encryptString(C, encryptString(C, T)) = T. -/
theorem claim_C5_reciprocity (C : MachineConfig) (m : Machine) (T : List Char)
    (hv : validateConfig C = Except.ok m)
    (hT : ∀ c ∈ T, 65 ≤ c.toNat ∧ c.toNat ≤ 90) :
    encryptChars m (encryptChars m T) = T :=
  encryptChars_reciprocal m (validateConfig_good C m hv) T hT

theorem claim_C5_reciprocity_witness :
    encryptChars defaultMachine (encryptChars defaultMachine ['A', 'B']) = ['A', 'B'] :=
  claim_C5_reciprocity defaultConfig defaultMachine ['A', 'B'] validate_default (by decide)

/-- C6: the stepping transition of the Machine, evaluated against the
pre-step rotor positions, agrees with the ordered rule list of the
specification (middle at notch: middle and left step; else right at
notch: middle steps; right always steps); each encrypted letter engages
exactly one such transition before it is transformed; and the middle
rotor can step on two consecutive letters (the double-stepping
anomaly), witnessed on doubleStepMachine. -/
theorem claim_C6_stepping :
    (∀ m : Machine,
      ((stepMachine m).left.pos, (stepMachine m).middle.pos, (stepMachine m).right.pos) =
        specStep m.middle.spec.notch m.right.spec.notch
          (m.left.pos, m.middle.pos, m.right.pos)) ∧
    (∀ (m : Machine) (c : Char) (cs : List Char), isLetterChar c = true →
      encryptChars m (c :: cs) =
        letterToChar (encryptLetter (stepMachine m) (charToLetter c)) ::
          encryptChars (stepMachine m) cs) ∧
    ((stepMachine doubleStepMachine).middle.pos =
        (doubleStepMachine.middle.pos + 1) % 26 ∧
      (stepMachine (stepMachine doubleStepMachine)).middle.pos =
        ((stepMachine doubleStepMachine).middle.pos + 1) % 26) := by
  refine ⟨fun m => ?_, fun m c cs h => encryptChars_cons_letter m c cs h,
    by decide, by decide⟩
  by_cases hm : m.middle.pos = m.middle.spec.notch <;>
    by_cases hr : m.right.pos = m.right.spec.notch <;>
    simp [stepMachine, specStep, isAtNotch, hm, hr]

theorem claim_C6_stepping_witness :
    encryptChars doubleStepMachine ['A'] =
      letterToChar (encryptLetter (stepMachine doubleStepMachine) (charToLetter 'A')) ::
        encryptChars (stepMachine doubleStepMachine) [] :=
  claim_C6_stepping.2.1 doubleStepMachine 'A' [] (by decide)

/-! ### Claims about the presentation layer -/

/-- C1 as stated is false: a space keystroke is handled by appending a
space to both displayed texts directly, with no engine invocation at all,
so it is not the case that every keystroke invokes the engine with the
accumulated plaintext. -/
theorem claim_C1_counterexample :
    ¬ ∀ (s : UIState) (k : String) (resp : Except Unit (List Char)),
        (uiHandleKeyPress s k resp).2 =
          [⟨defaultConfig, (uiHandleKeyPress s k resp).1.orig.map toUpperChar⟩] := by
  intro h
  have h2 := h ⟨[], []⟩ (" ") (Except.ok [])
  have h3 : (uiHandleKeyPress ⟨[], []⟩ (" ") (Except.ok [])).2 = [] := rfl
  rw [h3] at h2
  exact List.cons_ne_nil _ _ h2.symm

/-- C1 amended: on every letter keystroke (a key matching the single
ASCII letter pattern) the presentation layer invokes the engine exactly
once, with the entire accumulated plaintext normalized to uppercase and
the fixed default configuration, and on success displays the returned
ciphertext; a space keystroke appends a space to both displays without
invoking the engine, and other keystrokes invoke nothing. -/
theorem claim_C1_full_text_per_keystroke (s : UIState) (k : String)
    (resp : Except Unit (List Char)) :
    (isLetterKey k = true →
      (uiHandleKeyPress s k resp).2 =
        [⟨defaultConfig, (uiHandleKeyPress s k resp).1.orig.map toUpperChar⟩] ∧
      (∀ r, resp = Except.ok r → (uiHandleKeyPress s k resp).1.enc = r)) ∧
    (k = (" ") →
      uiHandleKeyPress s k resp = (⟨s.orig ++ [' '], s.enc ++ [' ']⟩, [])) ∧
    (isLetterKey k = false → k ≠ (" ") →
      uiHandleKeyPress s k resp = (s, [])) := by
  refine ⟨fun hk => ?_, fun hsp => ?_, fun h1 h2 => ?_⟩
  · have hsp : k ≠ (" ") := by
      intro he
      rw [he] at hk
      exact absurd hk (by decide)
    simp only [uiHandleKeyPress]
    rw [if_neg hsp, if_pos hk]
    cases resp with
    | ok r => exact ⟨rfl, fun r2 hr2 => by cases hr2; rfl⟩
    | error e => exact ⟨rfl, fun r2 hr2 => by cases hr2⟩
  · simp only [uiHandleKeyPress]
    rw [if_pos hsp]
  · simp only [uiHandleKeyPress]
    rw [if_neg h2, if_neg (by rw [h1]; exact Bool.false_ne_true)]

theorem claim_C1_full_text_per_keystroke_witness :
    ((uiHandleKeyPress ⟨[], []⟩ ("Q") (Except.ok ['X'])).2 =
      [⟨defaultConfig, (uiHandleKeyPress ⟨[], []⟩ ("Q") (Except.ok ['X'])).1.orig.map
        toUpperChar⟩] ∧
    (∀ r, (Except.ok ['X'] : Except Unit (List Char)) = Except.ok r →
      (uiHandleKeyPress ⟨[], []⟩ ("Q") (Except.ok ['X'])).1.enc = r)) ∧
    uiHandleKeyPress ⟨['a'], ['B']⟩ (" ") (Except.ok []) =
      (⟨['a', ' '], ['B', ' ']⟩, []) ∧
    uiHandleKeyPress ⟨[], []⟩ ("x1") (Except.ok []) = (⟨[], []⟩, []) :=
  ⟨(claim_C1_full_text_per_keystroke ⟨[], []⟩ ("Q") (Except.ok ['X'])).1 (by decide),
   (claim_C1_full_text_per_keystroke ⟨['a'], ['B']⟩ (" ") (Except.ok [])).2.1 rfl,
   (claim_C1_full_text_per_keystroke ⟨[], []⟩ ("x1") (Except.ok [])).2.2
     (by decide) (by decide)⟩

/-- C7: every engine invocation made by the caller carries the one fixed
default configuration, whose rotors are I, II, III with position A and
ring A each, whose reflector is B and whose plugboard string is empty;
and every key of the virtual keyboard is a single letter, so no UI
control exposes ring configuration. -/
theorem claim_C7_fixed_configuration :
    (∀ (s : UIState) (k : String) (resp : Except Unit (List Char)),
      ∀ call ∈ (uiHandleKeyPress s k resp).2, call.config = defaultConfig) ∧
    defaultConfig =
      ⟨(⟨("I"), ("A"), ("A")⟩, ⟨("II"), ("A"), ("A")⟩, ⟨("III"), ("A"), ("A")⟩),
        ("B"), ("")⟩ ∧
    (∀ row ∈ keyboardRows, ∀ k ∈ row, isLetterKey k = true) := by
  refine ⟨?_, rfl, by decide⟩
  intro s k resp call hc
  simp only [uiHandleKeyPress] at hc
  split at hc
  · cases hc
  · split at hc
    · cases resp with
      | ok r =>
        simp only [List.mem_singleton] at hc
        rw [hc]
      | error e =>
        simp only [List.mem_singleton] at hc
        rw [hc]
    · cases hc

theorem claim_C7_fixed_configuration_witness :
    (⟨defaultConfig, ['Q']⟩ : EngineCall).config = defaultConfig :=
  claim_C7_fixed_configuration.1 ⟨[], []⟩ ("Q") (Except.ok []) ⟨defaultConfig, ['Q']⟩
    (by decide)

/-- C8: a failing engine invocation surfaces as a distinguishable error
value (every validation failure propagates as that typed error, never as
an ok-wrapped string), and the calling layer degrades by appending
exactly one question mark to the previously displayed ciphertext,
leaving the rest of the display unchanged. -/
theorem claim_C8_failure_handling :
    (∀ (C : MachineConfig) (T : List Char) (e : EnigmaError),
      validateConfig C = Except.error e → enigmaProcessString C T = Except.error e) ∧
    (∀ (s : UIState) (k : String) (resp : Except Unit (List Char)) (e : Unit),
      isLetterKey k = true → resp = Except.error e →
      (uiHandleKeyPress s k resp).1 =
        ⟨s.orig ++ k.data.map toLowerChar, s.enc ++ ['?']⟩) := by
  constructor
  · intro C T e h
    simp only [enigmaProcessString]
    rw [h]
  · intro s k resp e hk hresp
    have hsp : k ≠ (" ") := by
      intro he
      rw [he] at hk
      exact absurd hk (by decide)
    simp only [uiHandleKeyPress]
    rw [if_neg hsp, if_pos hk, hresp]

theorem claim_C8_failure_handling_witness :
    enigmaProcessString
        ⟨(⟨("I"), ("A"), ("A")⟩, ⟨("II"), ("A"), ("A")⟩, ⟨("III"), ("A"), ("A")⟩),
          ("Z"), ("")⟩ ['A'] = Except.error EnigmaError.unknownReflector ∧
    (uiHandleKeyPress ⟨[], ['X']⟩ ("Q") (Except.error ())).1 = ⟨['q'], ['X', '?']⟩ :=
  ⟨claim_C8_failure_handling.1 _ ['A'] EnigmaError.unknownReflector rfl,
    claim_C8_failure_handling.2 ⟨[], ['X']⟩ ("Q") (Except.error ()) () (by decide) rfl⟩

/-- C9: a keystroke whose key is neither a single ASCII letter nor the
space character leaves both displayed texts unchanged and triggers no
engine invocation, through the virtual-keyboard handler and the physical
keydown handler alike. -/
theorem claim_C9_ignored_keys (s : UIState) (k : String) (resp : Except Unit (List Char))
    (h1 : isLetterKey k = false) (h2 : k ≠ (" ")) :
    uiHandleKeyPress s k resp = (s, []) ∧ uiHandlePhysicalKeyPress s k resp = (s, []) := by
  have h : uiHandleKeyPress s k resp = (s, []) := by
    simp only [uiHandleKeyPress]
    rw [if_neg h2, if_neg (by rw [h1]; exact Bool.false_ne_true)]
  exact ⟨h, h⟩

theorem claim_C9_ignored_keys_witness :
    uiHandleKeyPress ⟨['a'], ['B']⟩ ("Enter") (Except.ok []) = (⟨['a'], ['B']⟩, []) ∧
    uiHandlePhysicalKeyPress ⟨['a'], ['B']⟩ ("Enter") (Except.ok []) =
      (⟨['a'], ['B']⟩, []) :=
  claim_C9_ignored_keys ⟨['a'], ['B']⟩ ("Enter") (Except.ok []) (by decide) (by decide)

/-- C10: after a successful engine invocation the displayed ciphertext
equals exactly the string the engine returns for the full accumulated
text — the display is replaced wholesale, independent of its previous
contents, so earlier question-mark placeholders are overwritten. -/
theorem claim_C10_display_wholesale (s : UIState) (k : String)
    (resp : Except Unit (List Char)) (r : List Char) (hk : isLetterKey k = true)
    (hr : enigmaProcessString defaultConfig
        ((s.orig ++ k.data.map toLowerChar).map toUpperChar) = Except.ok r)
    (hresp : resp = Except.ok r) :
    (uiHandleKeyPress s k resp).1.enc = r := by
  have hsp : k ≠ (" ") := by
    intro he
    rw [he] at hk
    exact absurd hk (by decide)
  simp only [uiHandleKeyPress]
  rw [if_neg hsp, if_pos hk, hresp]

theorem claim_C10_display_wholesale_witness :
    (uiHandleKeyPress ⟨['a'], ['?']⟩ ("B") (Except.ok ['B', 'J'])).1.enc = ['B', 'J'] :=
  claim_C10_display_wholesale ⟨['a'], ['?']⟩ ("B") (Except.ok ['B', 'J']) ['B', 'J']
    (by decide) rfl rfl

end Enigma
